import Mathlib

/-!
Verification of the branch-listing module (src/command/branch.ts) of the
dugite-extra repository: the ref-listing record decoder, the branch
reconstructor, the current-branch resolver, and the delete-branch command
assembly.

Strings are embedded as lists of characters (`Str`), so that the JavaScript
string operations used by the source (split, substr, trim, startsWith,
replace of a leading prefix) can be modelled with their exact semantics.
JavaScript array indexing past the end yields `undefined`; this is embedded
as `Option` results of `List.get?`, and operations that would throw a
`TypeError` on `undefined` (or the explicit `throw` of the source) are
embedded as `Except` errors.
-/

/-- Character list standing for a JavaScript string. -/
abbrev Str := List Char

/-- NUL, the field separator produced by the %00 pieces of the format string. -/
def sep : Char := Char.ofNat 0

/-- Unit-separator control character: the source computes
`String.fromCharCode(parseInt('1F', 16))`, i.e. code point 31 (branch.ts
lines 5-6). -/
def delimiterChar : Char := Char.ofNat 31

/-- JavaScript `s.split(d)` for a single-character delimiter `d`: splits at
every occurrence and always yields at least one (possibly empty) piece. -/
def jsSplit (d : Char) : Str → List Str
  | [] => [[]]
  | c :: cs =>
    if c = d then [] :: jsSplit d cs
    else
      match jsSplit d cs with
      | [] => [[c]]
      | h :: t => (c :: h) :: t

/-- Whitespace characters removed by JavaScript `String.prototype.trim`
(restricted to the ASCII whitespace that can occur in the tool output). -/
def isJsSpace (c : Char) : Bool := c = ' ' || c = '\t' || c = '\n' || c = '\r'

/-- JavaScript `s.trim()`. -/
def jsTrim (s : Str) : Str :=
  ((s.dropWhile isJsSpace).reverse.dropWhile isJsSpace).reverse

/-- JavaScript `s.replace(/^heads\x2f/, '')`: drop a leading `heads/` if
present (branch.ts lines 41 and 82). -/
def stripHeads (s : Str) : Str :=
  if List.isPrefixOf ("heads/".data) s then s.drop 6 else s

/-- Branch classification (model/branch.ts is not part of src/; the two
constructors are named in the source as BranchType.Local / BranchType.Remote). -/
inductive BranchType where
  | Local
  | Remote
deriving DecidableEq, Repr

/-- Modelled from the spec: the structured authoring identity produced by the
external identity parser (src/ lacks model/commit-identity.ts); the spec
describes it as "structured: name, email, timestamp". -/
structure CommitIdentity where
  name : Str
  email : Str
  timestamp : Nat
deriving DecidableEq, Repr

/-- Numeric value of a list of decimal digit characters. -/
def natOfDigits (ds : Str) : Nat :=
  ds.foldl (fun n c => 10 * n + (c.toNat - 48)) 0

/-- Modelled from the spec: the external identity parser
(CommitIdentity.parseIdentity, whose source file is not under src/). The
spec describes it as a pure function taking a raw identity line and
returning a structured identity (name, email, timestamp) or a failure
signal. A raw line has the shape `NAME <EMAIL> TIMESTAMP ZONE`; the parse
fails when the angle-bracketed email or the decimal timestamp is missing. -/
def parseIdentity (s : Str) : Option CommitIdentity :=
  if ('<' ∈ s) then
    let namePart := (s.takeWhile (fun c => c ≠ '<')).reverse.dropWhile (fun c => c = ' ') |>.reverse
    let rest := (s.dropWhile (fun c => c ≠ '<')).drop 1
    if ('>' ∈ rest) then
      let email := rest.takeWhile (fun c => c ≠ '>')
      let after := ((rest.dropWhile (fun c => c ≠ '>')).drop 1).dropWhile (fun c => c = ' ')
      let digits := after.takeWhile (fun c => c.isDigit)
      if digits.isEmpty then none
      else some { name := namePart, email := email, timestamp := natOfDigits digits }
    else none
  else none

/-- Snapshot of the commit a branch points to, exactly as assembled on
branch.ts line 123. Fields read from record positions past the end of the
piece array are JavaScript `undefined`, hence `Option`. -/
structure BranchTip where
  sha : Option Str
  summary : Option Str
  body : Option Str
  author : CommitIdentity
  parentSHAs : List Str
deriving DecidableEq, Repr

/-- Branch entity as constructed on branch.ts line 126 (the Branch model
class itself is not under src/; only the four constructor arguments are
ever produced by this module). -/
structure Branch where
  name : Option Str
  upstream : Option Str
  tip : BranchTip
  type : BranchType
deriving DecidableEq, Repr

/-- Failure conditions of the decoding pipeline: the explicit `throw` on an
identity-parse failure (branch.ts line 116), and the JavaScript TypeError
raised when a method is invoked on an `undefined` record field. -/
inductive GitErr where
  | identityParseFailed
  | undefinedField
deriving DecidableEq, Repr

/-- Test of an `Except` value for success. -/
def exceptIsOk {ε α : Type} : Except ε α → Bool
  | .ok _ => true
  | .error _ => false

/-- Decidable equality of `Except` results, used to evaluate the decoding
pipeline on concrete inputs. -/
instance exceptDecEq {ε α : Type} [DecidableEq ε] [DecidableEq α] :
    DecidableEq (Except ε α) := fun x y =>
  match x, y with
  | .ok a, .ok b =>
    if h : a = b then .isTrue (by rw [h]) else .isFalse (fun hc => h (Except.ok.inj hc))
  | .error e, .error f =>
    if h : e = f then .isTrue (by rw [h]) else .isFalse (fun hc => h (Except.error.inj hc))
  | .ok _, .error _ => .isFalse (fun hc => Except.noConfusion hc)
  | .error _, .ok _ => .isFalse (fun hc => Except.noConfusion hc)

/-- Per-record body of the map on branch.ts lines 103-127 after the line has
been cleaned and split on NUL: reads the positional pieces, parses the
identity, splits the parent field on a space, classifies by the
`refs/head` prefix, and builds the Branch. The order of the failure cases
follows the evaluation order of the source. -/
def decodeRecord (parseId : Str → Option CommitIdentity) (pieces : List Str) :
    Except GitErr Branch :=
  let ref := pieces.get? 0
  let name := pieces.get? 1
  let upstream := pieces.get? 2
  let sha := pieces.get? 3
  match pieces.get? 4 with
  | none => .error .undefinedField
  | some authorIdentity =>
    match parseId authorIdentity with
    | none => .error .identityParseFailed
    | some author =>
      match pieces.get? 5 with
      | none => .error .undefinedField
      | some parentField =>
        let parentSHAs := jsSplit ' ' parentField
        let summary := pieces.get? 6
        let body := pieces.get? 7
        let tip : BranchTip :=
          { sha := sha, summary := summary, body := body, author := author,
            parentSHAs := parentSHAs }
        match ref with
        | none => .error .undefinedField
        | some r =>
          let ty := if List.isPrefixOf ("refs/head".data) r then BranchType.Local
                    else BranchType.Remote
          match upstream with
          | none => .error .undefinedField
          | some u =>
            .ok { name := name, upstream := if 0 < u.length then some u else none,
                  tip := tip, type := ty }

/-- Line cleaning of branch.ts line 105: every record after the first drops
one leading character (the newline that follows each record separator). -/
def cleanLine (ix : Nat) (line : Str) : Str :=
  if 0 < ix then line.drop 1 else line

/-- Record Decoder of branch.ts lines 98-105: split the raw stdout on the
unit separator, drop the final artifact of the trailing newline
(`lines.splice(-1, 1)`), clean each line, and split it on NUL. -/
def decodeRecords (stdout : Str) : List (List Str) :=
  (((jsSplit delimiterChar stdout).dropLast).enum).map
    (fun p => jsSplit sep (cleanLine p.1 p.2))

/-- Decoding core of getBranches (branch.ts lines 97-129) applied to the
stdout of the for-each-ref invocation: decode every record, failing as a
whole if any record fails, and reverse the final list on the darwin
platform. -/
def getBranches (parseId : Str → Option CommitIdentity) (darwin : Bool)
    (stdout : Str) : Except GitErr (List Branch) :=
  ((decodeRecords stdout).mapM (decodeRecord parseId)).map
    (fun bs => if darwin then bs.reverse else bs)

/-- Ref-namespace defaulting of branch.ts lines 91-93: an empty prefix list
means both the local-heads and the remote-tracking namespaces. -/
def getBranchesRefNamespaces (ps : List Str) : List Str :=
  if ps.isEmpty then [("refs/heads".data), ("refs/remotes".data)] else ps

/-- Format string of branch.ts lines 7-17: the eight field placeholders and
the literal `%1F` sentinel directive, all joined by `%00`. -/
def forEachRefFormat : Str :=
  List.intercalate ("%00".data)
    [("%(refname)".data), ("%(refname:short)".data), ("%(upstream:short)".data),
     ("%(objectname)".data), ("%(author)".data), ("%(parent)".data),
     ("%(subject)".data), ("%(body)".data), ("%1F".data)]

/-- Argument list of the for-each-ref invocation (branch.ts line 95). -/
def getBranchesArgs (ps : List Str) : List Str :=
  [("for-each-ref".data), (("--format=".data) ++ forEachRefFormat),
   ("--sort=-committerdate".data)] ++ getBranchesRefNamespaces ps

/-- Branch-name computation of the current-branch resolver (branch.ts lines
34-41): exit codes 1 (no upstream) and 128 (unborn branch) mean "no current
branch"; otherwise the trimmed stdout with a leading `heads/` stripped. -/
def currentBranchName (exitCode : Nat) (stdout : Str) : Option Str :=
  if exitCode = 1 ∨ exitCode = 128 then none
  else some (stripHeads (jsTrim stdout))

/-- Ref restriction passed to the follow-up getBranches call by the
current-branch resolver (branch.ts line 42). -/
def currentRefQuery (exitCode : Nat) (stdout : Str) : Option (List Str) :=
  (currentBranchName exitCode stdout).map (fun n => [(("refs/heads/".data) ++ n)])

/-- Non-current listing kinds of branch.ts lines 45-49. -/
inductive ListKind where
  | localKind
  | remoteKind
  | allKind
deriving DecidableEq, Repr

/-- Classification filter of branch.ts lines 45-49 applied to the decoded
branch list. -/
def listBranchOfKind (k : ListKind) (branches : List Branch) : List Branch :=
  match k with
  | .localKind => branches.filter (fun b => b.type == BranchType.Local)
  | .remoteKind => branches.filter (fun b => b.type == BranchType.Remote)
  | .allKind => branches

/-- NUL-terminated concatenation of the fields of one record, i.e. the text
a record contributes before its `%1F` sentinel: the format string
(branch.ts line 17) places a `%00` between the last field and the sentinel,
so every field, the last included, is followed by a NUL. -/
def recordBody (r : List Str) : Str :=
  (r.map (fun f => f ++ [sep])).flatten

/-- Full emitted text of one record: the NUL-terminated fields, the unit
separator, and the newline for-each-ref prints after every record. -/
def encodeRecord (r : List Str) : Str :=
  recordBody r ++ [delimiterChar, '\n']

/-- Well-formed batch output for a list of records, as emitted by the
for-each-ref format string of branch.ts lines 7-17. -/
def encodeBatch (rs : List (List Str)) : Str :=
  (rs.map encodeRecord).flatten

theorem jsSplit_of_not_mem {d : Char} {xs : Str} (h : d ∉ xs) :
    jsSplit d xs = [xs] := by
  induction xs with
  | nil => rfl
  | cons c cs ih =>
    have hc : c ≠ d := fun hcd => h (hcd ▸ List.mem_cons_self c cs)
    have hcs : d ∉ cs := fun hm => h (List.mem_cons_of_mem c hm)
    simp [jsSplit, hc, ih hcs]

theorem jsSplit_ne_nil (d : Char) (xs : Str) : jsSplit d xs ≠ [] := by
  induction xs with
  | nil => simp [jsSplit]
  | cons c cs ih =>
    by_cases hc : c = d
    · simp [jsSplit, hc]
    · simp only [jsSplit, if_neg hc]
      cases hsplit : jsSplit d cs with
      | nil => simp
      | cons h t => simp

theorem jsSplit_append_sep {d : Char} {xs : Str} (ys : Str) (h : d ∉ xs) :
    jsSplit d (xs ++ d :: ys) = xs :: jsSplit d ys := by
  induction xs with
  | nil => simp [jsSplit]
  | cons c cs ih =>
    have hc : c ≠ d := fun hcd => h (hcd ▸ List.mem_cons_self c cs)
    have hcs : d ∉ cs := fun hm => h (List.mem_cons_of_mem c hm)
    have h2 := ih hcs
    simp only [List.cons_append, jsSplit, if_neg hc, List.append_eq]
    rw [h2]

theorem jsSplit_cons_of_ne {d c : Char} {xs : Str} {h : Str} {t : List Str}
    (hc : c ≠ d) (hsplit : jsSplit d xs = h :: t) :
    jsSplit d (c :: xs) = (c :: h) :: t := by
  simp [jsSplit, hc, hsplit]

theorem jsSplit_recordBody {r : List Str} (h : ∀ f ∈ r, sep ∉ f) :
    jsSplit sep (recordBody r) = r ++ [[]] := by
  induction r with
  | nil => rfl
  | cons f fs ih =>
    have hf : sep ∉ f := h f (List.mem_cons_self f fs)
    have hfs : ∀ g ∈ fs, sep ∉ g := fun g hg => h g (List.mem_cons_of_mem f hg)
    have : recordBody (f :: fs) = f ++ sep :: recordBody fs := by
      simp [recordBody]
    rw [this, jsSplit_append_sep _ hf, ih hfs]
    simp

/-- Lines after the first produced by the record split: each carries the
stray newline of the preceding record separator, and the final line is the
lone trailing newline. -/
def nlLines : List (List Str) → List Str
  | [] => [['\n']]
  | r :: rs => ('\n' :: recordBody r) :: nlLines rs

theorem delimiterChar_not_mem_recordBody {r : List Str}
    (h : ∀ f ∈ r, delimiterChar ∉ f) : delimiterChar ∉ recordBody r := by
  intro hmem
  rw [recordBody, List.mem_flatten] at hmem
  obtain ⟨l, hl, hcl⟩ := hmem
  rw [List.mem_map] at hl
  obtain ⟨f, hf, rfl⟩ := hl
  rcases List.mem_append.mp hcl with hin | hin
  · exact h f hf hin
  · rw [List.mem_singleton] at hin
    exact absurd hin (by decide)

theorem jsSplit_nl_encodeBatch {rs : List (List Str)}
    (h : ∀ r ∈ rs, delimiterChar ∉ recordBody r) :
    jsSplit delimiterChar ('\n' :: encodeBatch rs) = nlLines rs := by
  induction rs with
  | nil => decide
  | cons r rs ih =>
    have hr : delimiterChar ∉ recordBody r := h r (List.mem_cons_self r rs)
    have hrs : ∀ x ∈ rs, delimiterChar ∉ recordBody x :=
      fun x hx => h x (List.mem_cons_of_mem r hx)
    have hbatch : encodeBatch (r :: rs) = recordBody r ++
        delimiterChar :: ('\n' :: encodeBatch rs) := by
      simp [encodeBatch, encodeRecord]
    rw [hbatch]
    have hsplit := jsSplit_append_sep ('\n' :: encodeBatch rs) hr
    have hnl : ('\n' : Char) ≠ delimiterChar := by decide
    have := @jsSplit_cons_of_ne delimiterChar '\n'
        (recordBody r ++ delimiterChar :: ('\n' :: encodeBatch rs)) _ _ hnl
        (by rw [hsplit, ih hrs])
    rw [this]
    rfl

theorem jsSplit_encodeBatch_cons {r : List Str} {rest : List (List Str)}
    (hr : delimiterChar ∉ recordBody r)
    (hrest : ∀ x ∈ rest, delimiterChar ∉ recordBody x) :
    jsSplit delimiterChar (encodeBatch (r :: rest)) = recordBody r :: nlLines rest := by
  have hbatch : encodeBatch (r :: rest) = recordBody r ++
      delimiterChar :: ('\n' :: encodeBatch rest) := by
    simp [encodeBatch, encodeRecord]
  rw [hbatch, jsSplit_append_sep _ hr, jsSplit_nl_encodeBatch hrest]

theorem nlLines_eq_append (rs : List (List Str)) :
    nlLines rs = (rs.map (fun r => '\n' :: recordBody r)) ++ [['\n']] := by
  induction rs with
  | nil => rfl
  | cons r rs ih => simp [nlLines, ih]

theorem enumFrom_map_cleanSplit (xs : List Str) (n : Nat) :
    (List.enumFrom (n + 1) xs).map (fun p => jsSplit sep (cleanLine p.1 p.2)) =
      xs.map (fun l => jsSplit sep (l.drop 1)) := by
  induction xs generalizing n with
  | nil => rfl
  | cons x xs ih =>
    simp only [List.enumFrom, List.map_cons, ih (n + 1)]
    simp [cleanLine]

/-- Splitting a well-formed batch output (no field holds the NUL separator
or the record sentinel) recovers every record, each extended by one trailing
empty piece: the trailing artifact of the NUL the format string places
between the last field and the sentinel. -/
theorem decodeRecords_encodeBatch {rs : List (List Str)}
    (h : ∀ r ∈ rs, ∀ f ∈ r, sep ∉ f ∧ delimiterChar ∉ f) :
    decodeRecords (encodeBatch rs) = rs.map (fun r => r ++ [[]]) := by
  have hdelim : ∀ r ∈ rs, delimiterChar ∉ recordBody r := by
    intro r hr
    exact delimiterChar_not_mem_recordBody (fun f hf => (h r hr f hf).2)
  cases rs with
  | nil => rfl
  | cons r rest =>
    have hr : delimiterChar ∉ recordBody r := hdelim r (List.mem_cons_self r rest)
    have hrest : ∀ x ∈ rest, delimiterChar ∉ recordBody x :=
      fun x hx => hdelim x (List.mem_cons_of_mem r hx)
    rw [decodeRecords, jsSplit_encodeBatch_cons hr hrest, nlLines_eq_append]
    have hdrop : (recordBody r :: (rest.map (fun x => '\n' :: recordBody x) ++
        [['\n']])).dropLast = recordBody r :: rest.map (fun x => '\n' :: recordBody x) := by
      rw [show recordBody r :: (rest.map (fun x => '\n' :: recordBody x) ++ [['\n']]) =
        (recordBody r :: rest.map (fun x => '\n' :: recordBody x)) ++ [['\n']] from by simp]
      exact List.dropLast_concat ..
    rw [hdrop]
    have henum : (recordBody r :: rest.map (fun x => '\n' :: recordBody x)).enum =
        (0, recordBody r) :: List.enumFrom 1 (rest.map (fun x => '\n' :: recordBody x)) := rfl
    rw [henum]
    simp only [List.map_cons, enumFrom_map_cleanSplit]
    have hhead : jsSplit sep (cleanLine 0 (recordBody r)) = r ++ [[]] :=
      jsSplit_recordBody (fun f hf => (h r (List.mem_cons_self r rest) f hf).1)
    rw [hhead]
    simp only [List.map_map]
    congr 1
    apply List.map_congr_left
    intro x hx
    simp only [Function.comp, List.drop_succ_cons, List.drop_zero]
    exact jsSplit_recordBody
      (fun f hf => (h x (List.mem_cons_of_mem r hx) f hf).1)

theorem decodeRecord_of_eight {parseId : Str → Option CommitIdentity}
    {f0 f1 f2 f3 f4 f5 f6 f7 : Str} (rest : List Str) {ident : CommitIdentity}
    (h : parseId f4 = some ident) :
    decodeRecord parseId (f0 :: f1 :: f2 :: f3 :: f4 :: f5 :: f6 :: f7 :: rest) =
      .ok { name := some f1,
            upstream := if 0 < f2.length then some f2 else none,
            tip := { sha := some f3, summary := some f6, body := some f7,
                     author := ident, parentSHAs := jsSplit ' ' f5 },
            type := if List.isPrefixOf ("refs/head".data) f0 then BranchType.Local
                    else BranchType.Remote } := by
  simp [decodeRecord, List.get?, h]

theorem exceptIsOk_map {ε α β : Type} (g : α → β) (e : Except ε α) :
    exceptIsOk (e.map g) = exceptIsOk e := by
  cases e <;> rfl

theorem mapM_isOk_iff {ε α β : Type} (f : α → Except ε β) (l : List α) :
    exceptIsOk (l.mapM f) = true ↔ ∀ x ∈ l, exceptIsOk (f x) = true := by
  induction l with
  | nil =>
    constructor
    · intro _ x hx
      exact absurd hx (List.not_mem_nil x)
    · intro _
      rfl
  | cons a l ih =>
    rw [List.mapM_cons]
    cases hfa : f a with
    | error e =>
      have hL : exceptIsOk ((Except.error e : Except ε β) >>= fun b =>
          List.mapM f l >>= fun bs => pure (b :: bs)) = false := rfl
      rw [hL]
      constructor
      · intro hcontra
        exact absurd hcontra (by simp)
      · intro hall
        have h2 := hall a (List.mem_cons_self a l)
        rw [hfa] at h2
        exact absurd h2 (by simp [exceptIsOk])
    | ok b =>
      have hred : ((Except.ok b : Except ε β) >>= fun b =>
          List.mapM f l >>= fun bs => pure (b :: bs)) =
          (List.mapM f l).map (fun bs => b :: bs) := by
        show (List.mapM f l >>= fun bs => pure (b :: bs)) = _
        cases List.mapM f l <;> rfl
      rw [hred, exceptIsOk_map]
      constructor
      · intro hok x hx
        rcases List.mem_cons.mp hx with rfl | hx2
        · rw [hfa]
          rfl
        · exact ih.mp hok x hx2
      · intro hall
        exact ih.mpr fun x hx => hall x (List.mem_cons_of_mem a hx)

theorem mapM_of_all_ok {ε α β : Type} {f : α → Except ε β} {g : α → β}
    {l : List α} (h : ∀ x ∈ l, f x = .ok (g x)) :
    l.mapM f = .ok (l.map g) := by
  induction l with
  | nil => rfl
  | cons a l ih =>
    rw [List.mapM_cons, h a (List.mem_cons_self a l),
      ih (fun x hx => h x (List.mem_cons_of_mem a hx))]
    rfl

theorem jsSplit_intercalate {ps : List Str} (hne : ps ≠ [])
    (h : ∀ p ∈ ps, (' ' : Char) ∉ p) :
    jsSplit ' ' (List.intercalate ([' ']) ps) = ps := by
  induction ps with
  | nil => exact absurd rfl hne
  | cons p ps ih =>
    cases ps with
    | nil =>
      rw [List.intercalate]
      simp only [List.intersperse, List.flatten]
      rw [List.append_nil]
      exact jsSplit_of_not_mem (h p (List.mem_cons_self p []))
    | cons q qs =>
      have hp : (' ' : Char) ∉ p := h p (List.mem_cons_self p (q :: qs))
      have hqs : ∀ x ∈ q :: qs, (' ' : Char) ∉ x :=
        fun x hx => h x (List.mem_cons_of_mem p hx)
      have hstep : List.intercalate ([' ']) (p :: q :: qs) =
          p ++ ' ' :: List.intercalate ([' ']) (q :: qs) := by
        simp [List.intercalate, List.intersperse]
      rw [hstep, jsSplit_append_sep _ hp, ih (by simp) hqs]

theorem nil_isPrefixOf (l : Str) : List.isPrefixOf ([] : Str) l = true := by
  cases l <;> rfl

theorem isPrefixOf_append_of_isPrefixOf {l₁ l₂ : Str} (r : Str)
    (h : List.isPrefixOf l₁ l₂ = true) : List.isPrefixOf l₁ (l₂ ++ r) = true := by
  induction l₁ generalizing l₂ with
  | nil => exact nil_isPrefixOf _
  | cons a as ih =>
    cases l₂ with
    | nil => exact absurd h (by simp [List.isPrefixOf])
    | cons b bs =>
      simp only [List.isPrefixOf, Bool.and_eq_true] at h
      simp only [List.cons_append, List.isPrefixOf, Bool.and_eq_true]
      exact ⟨h.1, ih h.2⟩

theorem not_isPrefixOf_remotes (n : Str) :
    List.isPrefixOf ("refs/head".data) (("refs/remotes/".data) ++ n) = false := by
  rfl

/-- Structured branch data used by the round-trip property: the spec lists
name, optional upstream, hash, parent hashes, summary, body and the
Local/Remote classification, plus the raw author line consumed by the
identity parser. -/
structure BranchData where
  name : Str
  upstream : Option Str
  sha : Str
  author : Str
  parents : List Str
  summary : Str
  body : Str
  type : BranchType
deriving DecidableEq, Repr

/-- Full ref path a branch of the given classification is listed under. -/
def refPathOf (d : BranchData) : Str :=
  (if d.type = BranchType.Local then ("refs/heads/".data) else ("refs/remotes/".data)) ++ d.name

/-- Upstream field content: the short upstream name, or the empty string
when there is no upstream. -/
def upstreamField (d : BranchData) : Str :=
  d.upstream.getD []

/-- Eight format fields of one record, in the order of branch.ts lines 7-17. -/
def recordOf (d : BranchData) : List Str :=
  [refPathOf d, d.name, upstreamField d, d.sha, d.author,
   List.intercalate ([' ']) d.parents, d.summary, d.body]

/-- Batch output encoding a list of branch data records. -/
def encodeBranches (ds : List BranchData) : Str :=
  encodeBatch (ds.map recordOf)

/-- Character is neither the NUL field separator nor the record sentinel. -/
def sepFree (s : Str) : Bool :=
  !(s.contains sep) && !(s.contains delimiterChar)

/-- Structural validity of branch data for the round-trip: every encoded
field is free of the two separator characters, a present upstream is
non-empty, the parent list is non-empty and its hashes are space-free, and
the raw author line is accepted by the identity parser. The body may
contain newlines. -/
def validData (parseId : Str → Option CommitIdentity) (d : BranchData) : Bool :=
  sepFree d.name && !(d.name.isEmpty) &&
  (match d.upstream with
   | none => true
   | some u => !(u.isEmpty) && sepFree u) &&
  sepFree d.sha &&
  sepFree d.author && (parseId d.author).isSome &&
  !(d.parents.isEmpty) && d.parents.all (fun p => sepFree p && !(p.contains ' ')) &&
  sepFree d.summary && sepFree d.body

/-- Branch entity the decoding pipeline reconstructs from the encoding of
one valid branch datum. -/
def decodedOf (parseId : Str → Option CommitIdentity) (d : BranchData) : Branch :=
  { name := some d.name,
    upstream := d.upstream,
    tip := { sha := some d.sha, summary := some d.summary, body := some d.body,
             author := (parseId d.author).getD { name := [], email := [], timestamp := 0 },
             parentSHAs := d.parents },
    type := d.type }

/-- Modelled from the spec: the derived `remote` accessor of the Branch
model class (model/branch.ts is not under src/). The remote of a branch is
the leading path component of its upstream short name (the text before the
first slash), absent when the branch has no upstream or the upstream has no
slash. -/
def branchRemote (b : Branch) : Option Str :=
  match b.upstream with
  | none => none
  | some u => if u.contains '/' then some (u.takeWhile (fun c => c ≠ '/')) else none

/-- Modelled from the spec: the derived `upstreamWithoutRemote` accessor of
the Branch model class — the upstream short name with its leading remote
component stripped. -/
def branchUpstreamWithoutRemote (b : Branch) : Option Str :=
  match b.upstream with
  | none => none
  | some u => if u.contains '/' then some ((u.dropWhile (fun c => c ≠ '/')).drop 1) else none

/-- JavaScript truthiness of `branch.remote` on branch.ts line 83: the
accessor yields a non-empty string. -/
def branchRemoteTruthy (b : Branch) : Bool :=
  (branchRemote b).any (fun r => !(r.isEmpty))

/-- Predicate of the `branches.find` call on branch.ts line 82: the branch
name with a leading `heads/` stripped equals the requested name. A decoded
branch always carries a name; an undefined name (on which the source would
raise a TypeError) matches nothing. -/
def deleteMatches (name : Str) (b : Branch) : Bool :=
  (b.name.map stripHeads) == some name

/-- Argument list of the local branch deletion (branch.ts line 78). -/
def deleteArgs (name : Str) (force : Bool) : List Str :=
  [("branch".data), (if force then ("-D".data) else ("-d".data)), name]

/-- Argument list of the remote-deletion push (branch.ts line 85); a missing
remote or upstream renders as the JavaScript string `undefined` inside the
template literal. -/
def pushDeleteArgs (b : Branch) : List Str :=
  [("push".data), ((branchRemote b).getD ("undefined".data)),
   (':' :: ((branchUpstreamWithoutRemote b).getD ("undefined".data)))]

/-- External invocations issued by deleteBranch (branch.ts lines 75-88), in
order: the pre-deletion listing when the remote option is set, the local
deletion, and the follow-up push when the listing is non-empty and its
first name-matching branch has a truthy remote. The `listing` argument is
the branch list returned by the pre-deletion getBranches call. -/
def deleteBranchInvocations (name : Str) (force remote : Bool)
    (listing : List Branch) : List (List Str) :=
  let branches := if remote then listing else []
  let listingPart := if remote then [getBranchesArgs []] else []
  let pushPart :=
    if remote && !(branches.isEmpty) then
      match branches.find? (deleteMatches name) with
      | some b => if branchRemoteTruthy b then [pushDeleteArgs b] else []
      | none => []
    else []
  listingPart ++ [deleteArgs name force] ++ pushPart

theorem sepFree_iff {s : Str} :
    sepFree s = true ↔ sep ∉ s ∧ delimiterChar ∉ s := by
  simp [sepFree]

theorem not_mem_intercalate {c : Char} {ps : List Str} (hc : c ≠ ' ')
    (h : ∀ p ∈ ps, c ∉ p) : c ∉ List.intercalate ([' ']) ps := by
  induction ps with
  | nil => simp [List.intercalate, List.intersperse]
  | cons p ps ih =>
    cases ps with
    | nil =>
      have : List.intercalate ([' ']) [p] = p := by
        simp [List.intercalate, List.intersperse]
      rw [this]
      exact h p (List.mem_cons_self p [])
    | cons q qs =>
      have hstep : List.intercalate ([' ']) (p :: q :: qs) =
          p ++ ' ' :: List.intercalate ([' ']) (q :: qs) := by
        simp [List.intercalate, List.intersperse]
      rw [hstep]
      intro hmem
      rcases List.mem_append.mp hmem with hin | hin
      · exact h p (List.mem_cons_self p (q :: qs)) hin
      · rcases List.mem_cons.mp hin with rfl | hin2
        · exact hc rfl
        · exact ih (fun x hx => h x (List.mem_cons_of_mem p hx)) hin2

theorem recordOf_sepFree {parseId : Str → Option CommitIdentity} {d : BranchData}
    (h : validData parseId d = true) :
    ∀ f ∈ recordOf d, sep ∉ f ∧ delimiterChar ∉ f := by
  simp only [validData, Bool.and_eq_true] at h
  obtain ⟨⟨⟨⟨⟨⟨⟨⟨⟨hname, _⟩, hup⟩, hsha⟩, hauthor⟩, _⟩, _⟩, hparAll⟩, hsum⟩, hbody⟩ := h
  have hnameF := sepFree_iff.mp hname
  have hpar : ∀ p ∈ d.parents, sep ∉ p ∧ delimiterChar ∉ p := by
    intro p hp
    rw [List.all_eq_true] at hparAll
    have := hparAll p hp
    rw [Bool.and_eq_true] at this
    exact sepFree_iff.mp this.1
  have hrefs : sep ∉ refPathOf d ∧ delimiterChar ∉ refPathOf d := by
    rw [refPathOf]
    cases d.type <;>
      (constructor <;>
        (intro hmem
         rcases List.mem_append.mp hmem with hin | hin
         · revert hin
           decide
         · first
             | exact hnameF.1 hin
             | exact hnameF.2 hin))
  have hparInter : sep ∉ List.intercalate ([' ']) d.parents ∧
      delimiterChar ∉ List.intercalate ([' ']) d.parents := by
    constructor
    · exact not_mem_intercalate (by decide) (fun p hp => (hpar p hp).1)
    · exact not_mem_intercalate (by decide) (fun p hp => (hpar p hp).2)
  have hupF : sep ∉ upstreamField d ∧ delimiterChar ∉ upstreamField d := by
    rw [upstreamField]
    cases hu : d.upstream with
    | none => simp
    | some u =>
      rw [hu] at hup
      simp only [Bool.and_eq_true] at hup
      simpa using sepFree_iff.mp hup.2
  intro f hf
  simp only [recordOf, List.mem_cons, List.not_mem_nil, or_false] at hf
  rcases hf with rfl | rfl | rfl | rfl | rfl | rfl | rfl | rfl
  · exact hrefs
  · exact hnameF
  · exact hupF
  · exact sepFree_iff.mp hsha
  · exact sepFree_iff.mp hauthor
  · exact hparInter
  · exact sepFree_iff.mp hsum
  · exact sepFree_iff.mp hbody

theorem decodeRecord_recordOf {parseId : Str → Option CommitIdentity} {d : BranchData}
    (h : validData parseId d = true) :
    decodeRecord parseId (recordOf d ++ [[]]) = .ok (decodedOf parseId d) := by
  simp only [validData, Bool.and_eq_true] at h
  obtain ⟨⟨⟨⟨⟨⟨⟨⟨⟨_, _⟩, hup⟩, _⟩, _⟩, hisSome⟩, hparNe⟩, hparAll⟩, _⟩, _⟩ := h
  obtain ⟨ident, hident⟩ := Option.isSome_iff_exists.mp hisSome
  have hrec : recordOf d ++ [[]] = refPathOf d :: d.name :: upstreamField d :: d.sha ::
      d.author :: List.intercalate ([' ']) d.parents :: d.summary :: d.body :: [[]] := rfl
  rw [hrec, decodeRecord_of_eight _ hident]
  have hparents : jsSplit ' ' (List.intercalate ([' ']) d.parents) = d.parents := by
    apply jsSplit_intercalate
    · intro hcontra
      rw [hcontra] at hparNe
      exact absurd hparNe (by decide)
    · intro p hp
      rw [List.all_eq_true] at hparAll
      have := hparAll p hp
      rw [Bool.and_eq_true] at this
      intro hmem
      have h2 := this.2
      simp at h2
      exact h2 hmem
  have hty : (if List.isPrefixOf ("refs/head".data) (refPathOf d) then BranchType.Local
      else BranchType.Remote) = d.type := by
    rw [refPathOf]
    cases d.type with
    | Local =>
      have hcond : (if BranchType.Local = BranchType.Local then ("refs/heads/".data)
          else ("refs/remotes/".data)) = ("refs/heads/".data) := by decide
      rw [hcond, if_pos (isPrefixOf_append_of_isPrefixOf _ (by decide))]
    | Remote =>
      have hcond : (if BranchType.Remote = BranchType.Local then ("refs/heads/".data)
          else ("refs/remotes/".data)) = ("refs/remotes/".data) := by decide
      rw [hcond]
      have hnp : ¬ (List.isPrefixOf ("refs/head".data)
          (("refs/remotes/".data) ++ d.name) = true) := by
        rw [not_isPrefixOf_remotes]
        simp
      rw [if_neg hnp]
  have hupstream : (if 0 < (upstreamField d).length then some (upstreamField d)
      else none) = d.upstream := by
    rw [upstreamField]
    cases hu : d.upstream with
    | none => simp
    | some u =>
      rw [hu] at hup
      simp only [Bool.and_eq_true] at hup
      have hne : u ≠ [] := by
        intro hcontra
        rw [hcontra] at hup
        exact absurd hup.1 (by decide)
      have hlen : 0 < u.length := List.length_pos.mpr hne
      rw [Option.getD_some, if_pos hlen]
  rw [decodedOf, hparents, hty, hupstream, hident, Option.getD_some]

theorem mapM_map_of_all_ok {ε α β γ : Type} {f : β → Except ε γ} {p : α → β}
    {g : α → γ} {l : List α} (hall : ∀ x ∈ l, f (p x) = .ok (g x)) :
    (l.map p).mapM f = .ok (l.map g) := by
  induction l with
  | nil => rfl
  | cons a l ih =>
    rw [List.map_cons, List.mapM_cons, hall a (List.mem_cons_self a l),
      ih (fun x hx => hall x (List.mem_cons_of_mem a hx))]
    rfl

theorem decodeRecord_ok_inversion {parseId : Str → Option CommitIdentity}
    {pieces : List Str} {b : Branch} (hok : decodeRecord parseId pieces = .ok b) :
    ∃ a ident pf r u, pieces.get? 4 = some a ∧ parseId a = some ident ∧
      pieces.get? 5 = some pf ∧ pieces.get? 0 = some r ∧ pieces.get? 2 = some u ∧
      b = { name := pieces.get? 1,
            upstream := if 0 < u.length then some u else none,
            tip := { sha := pieces.get? 3, summary := pieces.get? 6,
                     body := pieces.get? 7, author := ident,
                     parentSHAs := jsSplit ' ' pf },
            type := if List.isPrefixOf ("refs/head".data) r then BranchType.Local
                    else BranchType.Remote } := by
  simp only [decodeRecord] at hok
  cases h4 : pieces.get? 4 with
  | none => simp only [h4] at hok; cases hok
  | some a =>
    simp only [h4] at hok
    cases hpa : parseId a with
    | none => simp only [hpa] at hok; cases hok
    | some ident =>
      simp only [hpa] at hok
      cases h5 : pieces.get? 5 with
      | none => simp only [h5] at hok; cases hok
      | some pf =>
        simp only [h5] at hok
        cases h0 : pieces.get? 0 with
        | none => simp only [h0] at hok; cases hok
        | some r =>
          simp only [h0] at hok
          cases h2 : pieces.get? 2 with
          | none => simp only [h2] at hok; cases hok
          | some u =>
            simp only [h2] at hok
            exact ⟨a, ident, pf, r, u, rfl, hpa, rfl, rfl, rfl,
              (Except.ok.inj hok).symm⟩

theorem decodeRecord_isOk_iff (parseId : Str → Option CommitIdentity)
    (pieces : List Str) :
    exceptIsOk (decodeRecord parseId pieces) = true ↔
      6 ≤ pieces.length ∧
        ∃ a, pieces.get? 4 = some a ∧ (parseId a).isSome = true := by
  rcases pieces with _ | ⟨p0, _ | ⟨p1, _ | ⟨p2, _ | ⟨p3, _ | ⟨p4, _ | ⟨p5, rest⟩⟩⟩⟩⟩⟩
  · simp [decodeRecord, exceptIsOk, List.get?]
  · simp [decodeRecord, exceptIsOk, List.get?]
  · simp [decodeRecord, exceptIsOk, List.get?]
  · simp [decodeRecord, exceptIsOk, List.get?]
  · simp [decodeRecord, exceptIsOk, List.get?]
  · simp only [decodeRecord, List.get?]
    cases hpa : parseId p4 with
    | none => simp [exceptIsOk, hpa]
    | some ident => simp [exceptIsOk, hpa]
  · simp only [decodeRecord, List.get?]
    cases hpa : parseId p4 with
    | none => simp [exceptIsOk, hpa]
    | some ident =>
      simp only [exceptIsOk, List.length_cons]
      constructor
      · intro _
        refine ⟨by omega, p4, rfl, by rw [hpa]; rfl⟩
      · intro _
        trivial

example : jsSplit sep ("a\x00b\x00".data) = [("a".data), ("b".data), []] := by decide

example :
    decodeRecords ("a\x00b\x1F\nc\x00d\x1F\n".data) =
      [[("a".data), ("b".data)], [("c".data), ("d".data)]] := by decide

example :
    parseIdentity ("Jane <j@x.com> 1700000000 +0000".data) =
      some { name := ("Jane".data), email := ("j@x.com".data),
             timestamp := 1700000000 } := by decide

/-!
Claim theorems. Each concrete input below is an explicit batch output (or
record piece list, or branch listing) written with `\x00` for the NUL field
separator and `\x1F` for the record sentinel.
-/

/-- Record of eight separator-free fields used as the concrete input of the
C1 counterexample. -/
def c1Record : List Str :=
  [("refs/heads/main".data), ("main".data), [], ("abc123".data),
   ("Jane <j@x.com> 1700000000 +0000".data), [], ("Initial commit".data), []]

/-- C1 counterexample: for the well-formed batch output emitted by the
format string for a single record of eight fields, splitting the cleaned
record on the NUL separator does NOT yield exactly 8 fields — the format
string places a `%00` between the last field and the `%1F` sentinel, so the
split yields 9 pieces (the 8 fields plus a trailing empty artifact). -/
theorem c1_counterexample :
    ¬ (∀ t ∈ decodeRecords (encodeBatch [c1Record]), t.length = 8) := by decide

/-- C1 (amended): for every well-formed batch output containing K records
of eight separator-free fields each, the Record Decoder yields exactly K
per-record field tuples, and splitting each cleaned record on the NUL
separator yields exactly 9 fields: the 8 format fields followed by one
empty trailing artifact. -/
theorem c1_record_decoder_counts (rs : List (List Str))
    (h8 : ∀ r ∈ rs, r.length = 8)
    (hfree : ∀ r ∈ rs, ∀ f ∈ r, sep ∉ f ∧ delimiterChar ∉ f) :
    (decodeRecords (encodeBatch rs)).length = rs.length ∧
      ∀ t ∈ decodeRecords (encodeBatch rs), t.length = 9 := by
  rw [decodeRecords_encodeBatch hfree]
  constructor
  · rw [List.length_map]
  · intro t ht
    obtain ⟨r, hr, rfl⟩ := List.mem_map.mp ht
    rw [List.length_append, h8 r hr]
    rfl

/-- C1 witness: the amended count theorem applied to the one-record batch. -/
theorem c1_record_decoder_counts_witness :
    (decodeRecords (encodeBatch [c1Record])).length = 1 ∧
      ∀ t ∈ decodeRecords (encodeBatch [c1Record]), t.length = 9 :=
  c1_record_decoder_counts [c1Record] (by decide) (by decide)

/-- Zero-parent branch datum used as the concrete input of the C2
counterexample: structurally valid by the claim (name non-empty, no
upstream, a hash, a parent-hash list, a summary, a body), with an empty
parent list. -/
def c2NoParent : BranchData :=
  { name := ("main".data), upstream := none, sha := ("abc123".data),
    author := ("Jane <j@x.com> 1700000000 +0000".data), parents := [],
    summary := ("Initial commit".data), body := [], type := BranchType.Local }

/-- C2 counterexample: encoding a branch with an empty parent list and
decoding the result does not reproduce the original data — the decoded
parent list is the one-element list holding the empty string, because the
underlying split of the empty parent field yields one empty piece. -/
theorem c2_counterexample :
    getBranches parseIdentity false (encodeBranches [c2NoParent]) ≠
      .ok ([c2NoParent].map (decodedOf parseIdentity)) := by decide

/-- C2 (amended): the round-trip reproduces name, upstream presence, hash,
parents, summary, body and classification exactly for every list of
structurally valid branch data whose parent lists are non-empty (a
zero-parent branch decodes to the one-element parent list holding the empty
string instead of the empty list), on a non-darwin platform. -/
theorem c2_roundtrip (parseId : Str → Option CommitIdentity)
    (ds : List BranchData) (h : ∀ d ∈ ds, validData parseId d = true) :
    getBranches parseId false (encodeBranches ds) =
      .ok (ds.map (decodedOf parseId)) := by
  have hfree : ∀ r ∈ ds.map recordOf, ∀ f ∈ r, sep ∉ f ∧ delimiterChar ∉ f := by
    intro r hr
    obtain ⟨d, hd, rfl⟩ := List.mem_map.mp hr
    exact recordOf_sepFree (h d hd)
  rw [getBranches, encodeBranches, decodeRecords_encodeBatch hfree, List.map_map]
  simp only [Function.comp_def]
  rw [mapM_map_of_all_ok (g := decodedOf parseId)
    (fun d hd => decodeRecord_recordOf (h d hd))]
  rfl

/-- Valid branch datum used by the C2 witness. -/
def c2Data : BranchData :=
  { name := ("main".data), upstream := some ("origin/main".data),
    sha := ("abc123".data), author := ("Jane <j@x.com> 1700000000 +0000".data),
    parents := [("deadbeef".data)], summary := ("Initial commit".data),
    body := ("line one\nline two".data), type := BranchType.Local }

/-- C2 witness: the round-trip theorem applied to one concrete valid datum. -/
theorem c2_roundtrip_witness :
    getBranches parseIdentity false (encodeBranches [c2Data]) =
      .ok ([c2Data].map (decodedOf parseIdentity)) :=
  c2_roundtrip parseIdentity [c2Data] (by decide)

/-- C3: current-branch resolution — exit codes 1 and 128 both yield "no
current branch" for any stdout; exit code 0 with stdout `heads/foo` strips
the historical `heads/` prefix, yielding branch name `foo` and the
restricted ref query `refs/heads/foo`. -/
theorem c3_current_branch_resolution :
    (∀ s : Str, currentBranchName 1 s = none ∧ currentBranchName 128 s = none) ∧
      currentBranchName 0 ("heads/foo".data) = some ("foo".data) ∧
      currentRefQuery 0 ("heads/foo".data) = some [("refs/heads/foo".data)] := by
  refine ⟨fun s => ⟨?_, ?_⟩, ?_, ?_⟩
  · simp [currentBranchName]
  · simp [currentBranchName]
  · decide
  · decide

/-- Record piece list whose ref path starts with `refs/head` but not with
`refs/heads/`, used as the concrete input of the C4 counterexample. -/
def c4Pieces : List Str :=
  [("refs/headache".data), ("headache".data), [], ("abc123".data),
   ("Jane <j@x.com> 1700000000 +0000".data), [], ("s".data), [], []]

/-- C4 counterexample: a decoded record whose ref path does not begin with
`refs/heads/` still classifies as Local, because the source tests the
shorter prefix `refs/head` (branch.ts line 125). -/
theorem c4_counterexample :
    (decodeRecord parseIdentity c4Pieces).map (fun b => b.type) =
        .ok BranchType.Local ∧
      List.isPrefixOf ("refs/heads/".data) ("refs/headache".data) = false := by
  decide

/-- C4 (amended): for every successfully decoded record, the reconstructed
branch classifies as Local if and only if the record's full ref path begins
with the prefix `refs/head` (not `refs/heads/`); all others classify as
Remote. -/
theorem c4_classification (parseId : Str → Option CommitIdentity)
    (pieces : List Str) (b : Branch) (r : Str)
    (hok : decodeRecord parseId pieces = .ok b)
    (href : pieces.get? 0 = some r) :
    b.type = BranchType.Local ↔
      List.isPrefixOf ("refs/head".data) r = true := by
  obtain ⟨a, ident, pf, r2, u, _, _, _, h0, _, hb⟩ := decodeRecord_ok_inversion hok
  rw [href] at h0
  obtain rfl : r = r2 := Option.some.inj h0
  rw [hb]
  by_cases hp : List.isPrefixOf ("refs/head".data) r = true
  · simp [hp]
  · simp [hp]

/-- Record piece list with upstream `origin/x`, shared by the C4 and C8
witnesses. -/
def c8Pieces : List Str :=
  [("refs/heads/x".data), ("x".data), ("origin/x".data), ("abc".data),
   ("A <a@b.c> 5 +0000".data), [], ("s".data), [], []]

/-- Branch decoded from `c8Pieces`. -/
def c8Branch : Branch :=
  { name := some ("x".data), upstream := some ("origin/x".data),
    tip := { sha := some ("abc".data), summary := some ("s".data),
             body := some [],
             author := { name := ("A".data), email := ("a@b.c".data),
                         timestamp := 5 },
             parentSHAs := [[]] },
    type := BranchType.Local }

/-- C4 witness: the amended classification theorem applied to a concrete
decoded record. -/
theorem c4_classification_witness :
    c8Branch.type = BranchType.Local ↔
      List.isPrefixOf ("refs/head".data) ("refs/heads/x".data) = true :=
  c4_classification parseIdentity c8Pieces c8Branch ("refs/heads/x".data)
    (by decide) (by decide)

/-- Batch output whose single record splits into only 7 fields, used by the
C5 counterexample. -/
def c5Stdout : Str :=
  ("refs/heads/x\x00x\x00\x00abc\x00A <a@b.c> 5 +0000\x00\x00s\x1F\n".data)

/-- C5 counterexample: a batch output whose record does not split into the
expected number of fields decodes without any error — the source performs
no field-count validation, so a 7-field record silently produces a Branch
(its body is left undefined). -/
theorem c5_counterexample :
    (decodeRecords c5Stdout).map List.length = [7] ∧
      exceptIsOk (getBranches parseIdentity false c5Stdout) = true := by decide

/-- C5 (amended): the listing operation succeeds if and only if every
decoded record has at least six fields and an identity-parseable fifth
field; field counts other than the expected one are otherwise silently
tolerated (extra fields are ignored, missing summary or body fields are
left undefined), and records with fewer than six fields fail through an
undefined-field or identity-parse error rather than a field-count check. -/
theorem c5_field_count (parseId : Str → Option CommitIdentity)
    (darwin : Bool) (stdout : Str) :
    exceptIsOk (getBranches parseId darwin stdout) = true ↔
      ∀ pieces ∈ decodeRecords stdout,
        6 ≤ pieces.length ∧
          ∃ a, pieces.get? 4 = some a ∧ (parseId a).isSome = true := by
  rw [getBranches, exceptIsOk_map, mapM_isOk_iff]
  constructor
  · intro hall pieces hp
    exact (decodeRecord_isOk_iff parseId pieces).mp (hall pieces hp)
  · intro hall pieces hp
    exact (decodeRecord_isOk_iff parseId pieces).mpr (hall pieces hp)

/-- Batch output whose single record carries an identity line the parser
rejects, used by the C6 witness. -/
def c6Stdout : Str :=
  ("refs/heads/x\x00x\x00\x00abc\x00noangle\x00\x00s\x00b\x00\x1F\n".data)

/-- Piece list of the single record of `c6Stdout`. -/
def c6Pieces : List Str :=
  [("refs/heads/x".data), ("x".data), [], ("abc".data), ("noangle".data),
   [], ("s".data), ("b".data), []]

/-- C6: if the identity parser yields no result for the raw author-identity
field of any record in the batch, the entire listing operation fails — no
branch list is returned. -/
theorem c6_identity_failure_aborts (parseId : Str → Option CommitIdentity)
    (darwin : Bool) (stdout : Str) (i : Nat) (pieces : List Str) (a : Str)
    (hrec : (decodeRecords stdout).get? i = some pieces)
    (hfield : pieces.get? 4 = some a) (hfail : parseId a = none) :
    exceptIsOk (getBranches parseId darwin stdout) = false := by
  have hmem : pieces ∈ decodeRecords stdout := List.get?_mem hrec
  rw [getBranches, exceptIsOk_map]
  by_contra hcontra
  rw [Bool.not_eq_false] at hcontra
  have hall := (mapM_isOk_iff (decodeRecord parseId) (decodeRecords stdout)).mp
    hcontra pieces hmem
  simp only [decodeRecord, hfield, hfail] at hall
  exact absurd hall (by simp [exceptIsOk])

/-- C6 witness: the abort theorem applied to a concrete batch with an
unparseable identity line. -/
theorem c6_identity_failure_aborts_witness :
    exceptIsOk (getBranches parseIdentity false c6Stdout) = false :=
  c6_identity_failure_aborts parseIdentity false c6Stdout 0 c6Pieces
    ("noangle".data) (by decide) (by decide) (by decide)

/-- The exact batch output of the spec's worked example: one record for a
local branch `main` with no upstream, no parents, and an empty body. -/
def c7Stdout : Str :=
  ("refs/heads/main\x00main\x00\x00abc123\x00Jane <j@x.com> 1700000000 +0000\x00\x00Initial commit\x00\x00\x1F\n".data)

/-- Branch the source actually decodes from `c7Stdout`: identical to the
claimed one except that the parent list is the one-element list holding the
empty string. -/
def c7Branch : Branch :=
  { name := some ("main".data), upstream := none,
    tip := { sha := some ("abc123".data),
             summary := some ("Initial commit".data), body := some [],
             author := { name := ("Jane".data), email := ("j@x.com".data),
                         timestamp := 1700000000 },
             parentSHAs := [[]] },
    type := BranchType.Local }

/-- C7 counterexample: decoding the example batch output does not produce a
branch with an empty parent list — the zero-parent field splits into one
empty string, so the projection of the result onto parent lists differs
from the claimed `[[]]` (one branch, zero parents). -/
theorem c7_counterexample :
    (getBranches parseIdentity false c7Stdout).map
        (fun bs => bs.map (fun b => b.tip.parentSHAs)) ≠ .ok [[]] := by decide

/-- C7 (amended): the example batch output decodes to exactly one Local
branch named `main` with no upstream, tip hash `abc123`, summary
`Initial commit`, and a parent list holding a single empty string (not the
empty list). -/
theorem c7_example_decode :
    getBranches parseIdentity false c7Stdout = .ok [c7Branch] := by decide

/-- C8: for every successfully decoded record, the reconstructed branch's
upstream is present if and only if the record's third field is a non-empty
string, and when present it equals that field. -/
theorem c8_upstream_presence (parseId : Str → Option CommitIdentity)
    (pieces : List Str) (b : Branch) (u : Str)
    (hok : decodeRecord parseId pieces = .ok b)
    (hu : pieces.get? 2 = some u) :
    (b.upstream ≠ none ↔ u ≠ []) ∧ (∀ v, b.upstream = some v → v = u) := by
  obtain ⟨a, ident, pf, r, u2, _, _, _, _, h2, hb⟩ := decodeRecord_ok_inversion hok
  rw [hu] at h2
  obtain rfl : u = u2 := Option.some.inj h2
  by_cases hlen : 0 < u.length
  · have hne : u ≠ [] := List.length_pos.mp hlen
    rw [hb]
    simp only [if_pos hlen]
    constructor
    · constructor
      · intro _
        exact hne
      · intro _
        simp
    · intro v hv
      exact (Option.some.inj hv).symm
  · have heq : u = [] := by
      cases u with
      | nil => rfl
      | cons c cs => exact absurd (by simp) hlen
    subst heq
    rw [hb]
    simp only [if_neg hlen]
    constructor
    · simp
    · intro v hv
      exact absurd hv (by simp)

/-- C8 witness: the upstream theorem applied to a concrete record whose
third field is `origin/x`. -/
theorem c8_upstream_presence_witness :
    (c8Branch.upstream ≠ none ↔ ("origin/x".data) ≠ []) ∧
      (∀ v, c8Branch.upstream = some v → v = ("origin/x".data)) :=
  c8_upstream_presence parseIdentity c8Pieces c8Branch ("origin/x".data)
    (by decide) (by decide)

/-- Batch output whose single record has an empty second field (short ref
name), used by the C9 counterexample. -/
def c9Stdout : Str :=
  ("refs/heads/x\x00\x00\x00abc\x00A <a@b.c> 5 +0000\x00\x00s\x00b\x00\x1F\n".data)

/-- Piece list of the single record of `c9Stdout`. -/
def c9Pieces : List Str :=
  [("refs/heads/x".data), [], [], ("abc".data), ("A <a@b.c> 5 +0000".data),
   [], ("s".data), ("b".data), []]

/-- Branch with an empty name decoded from `c9Stdout`. -/
def c9Branch : Branch :=
  { name := some [], upstream := none,
    tip := { sha := some ("abc".data), summary := some ("s".data),
             body := some ("b".data),
             author := { name := ("A".data), email := ("a@b.c".data),
                         timestamp := 5 },
             parentSHAs := [[]] },
    type := BranchType.Local }

/-- C9 counterexample: a batch output whose record has an empty second
field produces a Branch with an empty name, and the `all` listing returns
it unchanged — no non-empty-name invariant is enforced anywhere. -/
theorem c9_counterexample :
    getBranches parseIdentity false c9Stdout = .ok [c9Branch] ∧
      listBranchOfKind ListKind.allKind [c9Branch] = [c9Branch] ∧
      c9Branch.name = some [] := by decide

/-- C9 (amended): every successfully decoded record produces a Branch whose
name is exactly the record's second field, possibly empty — the listing
operations never reject or rewrite an empty name. -/
theorem c9_name_verbatim (parseId : Str → Option CommitIdentity)
    (pieces : List Str) (b : Branch)
    (hok : decodeRecord parseId pieces = .ok b) :
    b.name = pieces.get? 1 := by
  obtain ⟨a, ident, pf, r, u, _, _, _, _, _, hb⟩ := decodeRecord_ok_inversion hok
  rw [hb]

/-- C9 witness: the verbatim-name theorem applied to the record with an
empty name field. -/
theorem c9_name_verbatim_witness : c9Branch.name = c9Pieces.get? 1 :=
  c9_name_verbatim parseIdentity c9Pieces c9Branch (by decide)

/-- Commit tip shared by the C10 listing entries. -/
def c10Tip : BranchTip :=
  { sha := some ("abc".data), summary := some [], body := some [],
    author := { name := [], email := [], timestamp := 0 },
    parentSHAs := [] }

/-- Listing entry whose stripped name matches `x` but which has no remote. -/
def c10BranchA : Branch :=
  { name := some ("heads/x".data), upstream := none, tip := c10Tip,
    type := BranchType.Local }

/-- Listing entry whose stripped name matches `x` and whose remote is
`origin`. -/
def c10BranchB : Branch :=
  { name := some ("x".data), upstream := some ("origin/x".data),
    tip := c10Tip, type := BranchType.Local }

/-- C10 counterexample: deleting `x` with the remote option against a
pre-deletion listing that does contain a matching branch with a non-empty
remote issues no push — only two invocations occur — because the find
returns the first name-matching branch, which has no remote. -/
theorem c10_counterexample :
    (deleteBranchInvocations ("x".data) false true
        [c10BranchA, c10BranchB]).length = 2 ∧
      ([c10BranchA, c10BranchB].any
        (fun b => deleteMatches ("x".data) b && branchRemoteTruthy b)) = true := by
  decide

/-- C10 (amended): deleteBranch issues the follow-up remote-deletion push
if and only if the remote option is true and the FIRST branch of the
pre-deletion listing whose stripped name equals the requested name has a
non-empty remote; with the remote option false the sole invocation is the
local deletion. -/
theorem c10_delete_invocations (name : Str) (force : Bool)
    (listing : List Branch) :
    deleteBranchInvocations name force false listing =
        [deleteArgs name force] ∧
      ((deleteBranchInvocations name force true listing).length = 3 ↔
        ((listing.find? (deleteMatches name)).any branchRemoteTruthy) = true) := by
  constructor
  · rfl
  · cases listing with
    | nil => simp [deleteBranchInvocations]
    | cons b0 bs =>
      simp only [deleteBranchInvocations, List.isEmpty_cons, Bool.not_false,
        Bool.and_true, Bool.and_self, if_pos]
      cases hfind : (b0 :: bs).find? (deleteMatches name) with
      | none => simp [hfind]
      | some b =>
        by_cases hr : branchRemoteTruthy b = true
        · simp [hfind, hr]
        · simp [hfind, hr]
